import Mathlib

/-
Verification of the torto task runner (src/torto/torto.go).

The Go code is shallowly embedded: Go strings become lists of characters,
Go maps become association lists (list order standing in for a deterministic
choice of the unspecified Go map iteration order, which the specification
explicitly permits), fallible operations return Option/Except, and the
recursive variable resolver is given an explicit recursion-depth fuel
parameter (outer `none` = the Go recursion does not terminate at that depth).
-/

set_option maxRecDepth 4096

namespace Torto

/-- Go strings, modelled as lists of characters. -/
abbrev Str := List Char

/-- Test of the character class [a-zA-Z0-9] from the regex at torto.go:100. -/
def isAlnumGo (c : Char) : Bool :=
  (('a' ≤ c) && (c ≤ 'z')) || (('A' ≤ c) && (c ≤ 'Z')) || (('0' ≤ c) && (c ≤ '9'))

/-- startsWith pat s: pat is a prefix of s. -/
def startsWith : Str → Str → Bool
  | [], _ => true
  | _ :: _, [] => false
  | p :: ps, c :: cs => (p == c) && startsWith ps cs

/-- strings.Contains s pat: pat occurs as a contiguous substring of s. -/
def strContains : Str → Str → Bool
  | [], pat => startsWith pat []
  | c :: rest, pat => startsWith pat (c :: rest) || strContains rest pat

/-- Helper for replaceAll, structurally recursive on a fuel that is
initialised to the length of the subject string (one unit is spent per
character consumed, so the fuel never runs out before the string does). -/
def replaceAllAux (pat rep : Str) : Nat → Str → Str
  | _, [] => []
  | 0, s => s
  | f + 1, c :: rest =>
    if startsWith pat (c :: rest) then
      rep ++ replaceAllAux pat rep f (List.drop (pat.length - 1) rest)
    else
      c :: replaceAllAux pat rep f rest

/-- strings.ReplaceAll s pat rep: replace the non-overlapping occurrences of
pat in s, left to right, by rep; replacement text is never rescanned. -/
def replaceAll (pat rep s : Str) : Str :=
  replaceAllAux pat rep s.length s

/-- strings.Join parts " " as used at torto.go:124. -/
def joinSpace : List Str → Str
  | [] => []
  | [s] => s
  | s :: rest => s ++ ' ' :: joinSpace rest

/-- A Go map[string]V, modelled as an association list.  The list order is
the (deterministically chosen) iteration order; keys are unique by
construction of every map the program builds. -/
abbrev SMap (V : Type) := List (Str × V)

/-- Map lookup m[k] (first matching binding). -/
def smFind {V : Type} : SMap V → Str → Option V
  | [], _ => none
  | (k', v) :: rest, k => if k' = k then some v else smFind rest k

/-- Map assignment m[k] = v: overwrite the binding in place, or append. -/
def smInsert {V : Type} : SMap V → Str → V → SMap V
  | [], k, v => [(k, v)]
  | (k', v') :: rest, k, v =>
    if k' = k then (k, v) :: rest else (k', v') :: smInsert rest k v

/-- for k, v := range upd { base[k] = v } (torto.go:82-91). -/
def insertAll {V : Type} (base upd : SMap V) : SMap V :=
  upd.foldl (fun b kv => smInsert b kv.1 kv.2) base

/-- The keys of a map, in iteration order. -/
def smKeys {V : Type} : SMap V → List Str
  | [] => []
  | (k, _) :: rest => k :: smKeys rest

theorem smFind_smInsert {V : Type} (m : SMap V) (k : Str) (v : V) (k' : Str) :
    smFind (smInsert m k v) k' = if k = k' then some v else smFind m k' := by
  induction m with
  | nil =>
    by_cases h : k = k' <;> simp [smInsert, smFind, h]
  | cons kv rest ih =>
    obtain ⟨k0, v0⟩ := kv
    by_cases h0 : k0 = k
    · subst h0
      by_cases h : k0 = k' <;> simp [smInsert, smFind, h]
    · by_cases h : k0 = k'
      · subst h
        have hkk : ¬ k = k0 := fun hc => h0 hc.symm
        simp [smInsert, h0, smFind, hkk]
      · simp [smInsert, h0, smFind, h, ih]

theorem smFind_none_of_not_mem {V : Type} (m : SMap V) (k : Str)
    (h : k ∉ smKeys m) : smFind m k = none := by
  induction m with
  | nil => simp [smFind]
  | cons kv rest ih =>
    obtain ⟨k0, v0⟩ := kv
    simp [smKeys] at h
    have hne : ¬ k0 = k := fun hc => h.1 hc.symm
    simp [smFind, hne, ih h.2]

theorem smFind_insertAll {V : Type} (base upd : SMap V) (k : Str)
    (hnd : (smKeys upd).Nodup) :
    smFind (insertAll base upd) k =
      match smFind upd k with
      | some v => some v
      | none => smFind base k := by
  induction upd generalizing base with
  | nil => simp [insertAll, smFind]
  | cons kv rest ih =>
    obtain ⟨k0, v0⟩ := kv
    have hnd' : (smKeys rest).Nodup := by
      have := hnd
      simp [smKeys, List.nodup_cons] at this
      exact this.2
    have hk0 : k0 ∉ smKeys rest := by
      have := hnd
      simp [smKeys, List.nodup_cons] at this
      exact this.1
    have hstep : insertAll base ((k0, v0) :: rest) = insertAll (smInsert base k0 v0) rest := by
      simp [insertAll, List.foldl_cons]
    rw [hstep, ih _ hnd']
    by_cases hk : k0 = k
    · subst hk
      have : smFind rest k0 = none := smFind_none_of_not_mem rest k0 hk0
      simp [smFind, this, smFind_smInsert]
    · simp [smFind, hk, smFind_smInsert]

/-- The deserialized torto.yml content (struct Targets, torto.go:28-31).
Each field is a Go map that yaml.v3 leaves nil when the corresponding
top-level section is absent from the file: `none` is that nil map, `some l`
a non-nil (possibly empty) map. -/
structure TargetsM where
  targets : Option (SMap (List Str))
  vars : Option (SMap Str)
deriving DecidableEq

/-- emptyTargets (torto.go:59-64): freshly made, hence non-nil, empty maps. -/
def emptyTargets : TargetsM := ⟨some [], some []⟩

/-- Reading m[k] on a possibly-nil Go map: reading a nil map is safe and
finds nothing. -/
def smFindO {V : Type} (m : Option (SMap V)) (k : Str) : Option V :=
  match m with
  | none => none
  | some l => smFind l k

/-- The merge loop `for k, v := range upd { base[k] = v }` at torto.go:82-87
on possibly-nil Go maps.  Ranging over a nil or empty map performs no write;
a write into a nil base map panics (Go: assignment to entry in nil map),
modelled by the outer `none`. -/
def rangeWrite {V : Type} (base upd : Option (SMap V)) : Option (Option (SMap V)) :=
  match upd with
  | none => some base
  | some u =>
    match u with
    | [] => some base
    | _ :: _ =>
      match base with
      | none => none
      | some b => some (some (insertAll b u))

/-- The copy loop at torto.go:89-91: range over the merged (possibly-nil)
vars map, assigning into c.argReplacements, which is always a non-nil map
(made at torto.go:97 and 196-198), so no panic is possible here. -/
def copyVars (vars : Option (SMap Str)) (argReplacements : SMap Str) : SMap Str :=
  match vars with
  | none => argReplacements
  | some vs => insertAll argReplacements vs

/-- The keys of a possibly-nil map are unique (trivially so for nil). -/
def nodupKeysO {V : Type} : Option (SMap V) → Prop
  | none => True
  | some l => (smKeys l).Nodup

instance {V : Type} : (o : Option (SMap V)) → Decidable (nodupKeysO o)
  | none => isTrue trivial
  | some l => inferInstanceAs (Decidable ((smKeys l).Nodup))

/-- The merge-and-copy phase of getTargets (torto.go:82-91), after both
structs are in hand: overlay the local sections onto the global struct
(panicking — outer `none` — on a write into a nil global section), then copy
the merged vars over c.argReplacements. -/
def mergeTargets (defaultTargets thisDirTargets : TargetsM) (argReplacements : SMap Str) :
    Option (TargetsM × SMap Str) :=
  match rangeWrite defaultTargets.targets thisDirTargets.targets with
  | none => none
  | some mt =>
    match rangeWrite defaultTargets.vars thisDirTargets.vars with
    | none => none
    | some mv =>
      some (⟨mt, mv⟩, copyVars mv argReplacements)

/-- getTargets (torto.go:66-94).  The two file loads are abstracted as their
results (`.error e` = getTargetsFile returned an error): defaultRes is the
user-global load (c.defaultTargetsFilePath), thisRes the project-local load
(c.targetsFilePath).  argReplacements is c.argReplacements on entry.  The
outer `none` models the Go panic raised by the merge loops at torto.go:82-87
when they write into a nil section of the global-side struct; otherwise the
function returns the merged definitions together with the updated
c.argReplacements (lines 89-91 copy every merged file variable over it). -/
def getTargets (defaultRes thisRes : Except Str TargetsM) (argReplacements : SMap Str) :
    Option (Except Str (TargetsM × SMap Str)) :=
  match defaultRes, thisRes with
  | .error _, .error thisDirErr => some (.error thisDirErr)
  | _, _ =>
    let defaultTargets := match defaultRes with
      | .ok t => t
      | .error _ => emptyTargets
    let thisDirTargets := match thisRes with
      | .ok t => t
      | .error _ => emptyTargets
    match mergeTargets defaultTargets thisDirTargets argReplacements with
    | none => none
    | some merged => some (.ok merged)

/-- The reserved key CMD. -/
def cmdKey : Str := ['C', 'M', 'D']

/-- The reserved key BIN. -/
def binKey : Str := ['B', 'I', 'N']

/-- r.FindStringSubmatch arg for r = ^([a-zA-Z0-9]+)=(.+)$ (torto.go:100-103).
Go RE2 semantics: the anchored pattern must cover the whole string; the greedy
alphanumeric group is necessarily the maximal alphanumeric prefix (the next
character must be the literal '='); `.` matches any character except newline
and `$` (multi-line mode off) matches only at end of text, so the second group
is the nonempty, newline-free remainder after that '='.  Result: [] on no
match, [wholeMatch, group1, group2] on a match. -/
def findStringSubmatch (arg : Str) : List Str :=
  let name := arg.takeWhile isAlnumGo
  match arg.dropWhile isAlnumGo with
  | '=' :: value =>
    if name ≠ [] ∧ value ≠ [] ∧ '\n' ∉ value then [arg, name, value] else []
  | _ => []

/-- The value selection at torto.go:105-110: use matches[2] when it is
nonempty, else fall back to matches[3].  Go slice indexing is modelled by
List.get?, with `none` standing for an out-of-range access (a Go panic). -/
def argValue (ms : List Str) : Option Str :=
  match ms.get? 2 with
  | none => none
  | some g2 => if g2 ≠ [] then some g2 else ms.get? 3

/-- The classification loop of getTargetNameAndRunArgs (torto.go:102-116),
accumulating runArgs and nonValueReplacementArgs.  Outer `none` models an
out-of-range slice access while computing the value. -/
def parseLoop : List Str → SMap Str → List Str → Option (SMap Str × List Str)
  | [], runArgs, residual => some (runArgs, residual)
  | arg :: rest, runArgs, residual =>
    match findStringSubmatch arg with
    | [] => parseLoop rest runArgs (residual ++ [arg])
    | ms =>
      match ms.get? 1, argValue ms with
      | some name, some value => parseLoop rest (smInsert runArgs name value) residual
      | _, _ => none

/-- getTargetNameAndRunArgs (torto.go:96-134).  os.Executable() is abstracted
as its result exePath.  Outer `none` models a Go panic (never happens). -/
def getTargetNameAndRunArgs (exePath : Except Str Str) (programArgs : List Str) :
    Option (Except Str (Str × SMap Str)) :=
  match parseLoop programArgs [] [] with
  | none => none
  | some (runArgs, nonValueReplacementArgs) =>
    match nonValueReplacementArgs with
    | [] => some (.error "target missing. check usage with -h".data)
    | target :: rest =>
      let runArgs1 := smInsert runArgs cmdKey (joinSpace rest)
      match exePath with
      | .error e => some (.error e)
      | .ok path => some (.ok (target, smInsert runArgs1 binKey path))

/-- One pass of the loop in withResolvedArgs (torto.go:137-142), iterating
over the key-value pairs of c.argReplacements in list order; resolveF is the
recursive call used for the values. -/
def withResolvedArgsLoop (resolveF : Str → Option Str) : SMap Str → Str → Option Str
  | [], s => some s
  | (k, v) :: rest, s =>
    if strContains s ('$' :: k) then
      match resolveF v with
      | none => none
      | some resolved => withResolvedArgsLoop resolveF rest (replaceAll ('$' :: k) resolved s)
    else withResolvedArgsLoop resolveF rest s

/-- withResolvedArgs (torto.go:136-144) with an explicit recursion-depth fuel:
`none` means the Go recursion exceeds that nesting depth (the Go code has no
bound and simply recurses). -/
def withResolvedArgs (argReplacements : SMap Str) : Nat → Str → Option Str
  | 0, _ => none
  | fuel + 1, s => withResolvedArgsLoop (withResolvedArgs argReplacements fuel) argReplacements s

/-- The Go recursion of withResolvedArgs diverges on s: no finite nesting
depth suffices. -/
def resolveDiverges (argReplacements : SMap Str) (s : Str) : Prop :=
  ∀ fuel, withResolvedArgs argReplacements fuel s = none

/-- Key k directly references key j: k is bound and its bound value contains
the token $j (the containment-based reading of a variable reference). -/
def refersTo (argReplacements : SMap Str) (k j : Str) : Bool :=
  match smFind argReplacements k with
  | some v => strContains v ('$' :: j)
  | none => false

/-- Execute (torto.go:146-193).  Abstractions: cmd.Run() for a fully resolved
command string is the oracle runCmd (`none` = the shell command succeeded,
`some err` = it failed with underlying error err); printing is dropped; fuel
feeds the resolver, with outer `none` = some resolution did not terminate at
that depth.  The result pairs the list of commands actually handed to the
shell (in order) with the error returned by Execute (`none` = Go nil). -/
def Execute (runCmd : Str → Option Str) (argReplacements : SMap Str) (fuel : Nat)
    (force dbg : Bool) : List Str → Option (List Str × Option Str)
  | [] => some ([], none)
  | v :: rest =>
    match withResolvedArgs argReplacements fuel v with
    | none => none
    | some command =>
      if dbg then Execute runCmd argReplacements fuel force dbg rest
      else
        match runCmd command with
        | none =>
          (Execute runCmd argReplacements fuel force dbg rest).map
            (fun r => (command :: r.1, r.2))
        | some err =>
          if force then
            (Execute runCmd argReplacements fuel force dbg rest).map
              (fun r => (command :: r.1, r.2))
          else some ([command], some err)

/-- The fields of Config that ArgsValidator fills in (torto.go:18-26). -/
structure ConfigM where
  target : Str
  argReplacements : SMap Str
  thisTarget : List Str
deriving DecidableEq

/-- ArgsValidator (torto.go:221-247): parse the arguments, resolve the target
name for display (c.target, torto.go:229) — this runs BEFORE the lookup, so
if the resolution does not terminate at the given depth the whole validator
has no result (outer `none`), exactly as the Go program hangs there — then
load and merge the target definitions (propagating their panic outcome), and
finally look the literal target-name token up in the merged definitions. -/
def ArgsValidator (fuel : Nat) (defaultRes thisRes : Except Str TargetsM)
    (exePath : Except Str Str) (args : List Str) : Option (Except Str ConfigM) :=
  match getTargetNameAndRunArgs exePath args with
  | none => none
  | some (.error e) => some (.error e)
  | some (.ok (targetName, runArgs)) =>
    match withResolvedArgs runArgs fuel targetName with
    | none => none
    | some displayTarget =>
      match getTargets defaultRes thisRes runArgs with
      | none => none
      | some (.error e) => some (.error e)
      | some (.ok (targets, repl)) =>
        match smFindO targets.targets targetName with
        | none => some (.error ("target ".data ++ targetName ++ " does not exist".data))
        | some thisTarget => some (.ok ⟨displayTarget, repl, thisTarget⟩)

/-- ArgsValidator has no result at any resolver depth: the Go program hangs
inside this call and never returns to cobra. -/
def ArgsValidatorHangs (defaultRes thisRes : Except Str TargetsM)
    (exePath : Except Str Str) (args : List Str) : Prop :=
  ∀ fuel, ArgsValidator fuel defaultRes thisRes exePath args = none

/-- The NAME-to-VALUE entry that the classification described by the claim
produces for a given NAME: the VALUE of the last argument matching the
pattern with that NAME (plain Go map overwrite — the spec states that on a
repeated NAME the last occurrence in argument order wins). -/
def lastAssign : List Str → Str → Option Str
  | [], _ => none
  | a :: rest, n =>
    match lastAssign rest n with
    | some v => some v
    | none =>
      match findStringSubmatch a with
      | [_, n2, v] => if n2 = n then some v else none
      | _ => none

/-- Option-valued List.mapM, used to state that every command resolves. -/
def mapOpt {α β : Type} (f : α → Option β) : List α → Option (List β)
  | [] => some []
  | a :: l =>
    match f a, mapOpt f l with
    | some b, some bs => some (b :: bs)
    | _, _ => none

/-- The classification pattern of the specification for caller arguments:
NAME=VALUE with NAME one-or-more alphanumerics and VALUE one-or-more of any
characters (non-empty). -/
def isAssignClaim (arg name value : Str) : Prop :=
  arg = name ++ '=' :: value ∧ name ≠ [] ∧ (∀ c ∈ name, isAlnumGo c = true) ∧ value ≠ []

/-- The amended classification pattern: as isAssignClaim, but VALUE must also
be newline-free (Go regexp `.` does not match a newline). -/
def isAssign (arg name value : Str) : Prop :=
  isAssignClaim arg name value ∧ '\n' ∉ value

instance {ε α : Type} [DecidableEq ε] [DecidableEq α] : DecidableEq (Except ε α) := fun x y =>
  match x, y with
  | .ok a, .ok b =>
    if h : a = b then isTrue (by rw [h]) else isFalse (fun hc => h (Except.ok.inj hc))
  | .error a, .error b =>
    if h : a = b then isTrue (by rw [h]) else isFalse (fun hc => h (Except.error.inj hc))
  | .ok _, .error _ => isFalse (fun hc => Except.noConfusion hc)
  | .error _, .ok _ => isFalse (fun hc => Except.noConfusion hc)

/-- A variable map with no cyclic (direct or indirect) self-reference on
which the resolver nevertheless diverges: B is bound to a lone dollar sign
and A to the text dollar-B-A, so A references only B and B references
nothing, yet replacing the token of B inside the value of A manufactures
the token of A at the seam. -/
def cexRepl : SMap Str := [(['B'], ['$']), (['A'], ['$', 'B', 'A'])]

/-- Global torto.yml for the merge-precedence scenario: vars X = 1 (and an
empty, present targets section). -/
def gvC1 : TargetsM := ⟨some [], some [(['X'], ['1'])]⟩

/-- Local torto.yml for the merge-precedence scenario: vars X = 2. -/
def lvC1 : TargetsM := ⟨some [], some [(['X'], ['2'])]⟩

/-- The caller map produced by parsing the arguments dollar-A and A=dollar-A:
A bound to the text dollar-A, plus the reserved CMD and BIN entries. -/
def raC8 : SMap Str := [(['A'], ['$', 'A']), (cmdKey, []), (binKey, ['b'])]

/-- The argument list for the resolution-hang scenario: the target token is
dollar-A and the caller also supplies the assignment A=dollar-A. -/
def args8 : List Str := [['$', 'A'], ['A', '=', '$', 'A']]

/-- A project-local torto.yml with present but empty sections, used in the
resolution-hang scenario (its merged definitions bind no target at all). -/
def t8 : TargetsM := ⟨some [], some []⟩

/-- Caller argument map for the merge-precedence scenario: X=3 on the
command line, plus the reserved CMD and BIN entries. -/
def arC1 : SMap Str := [(['X'], ['3']), (cmdKey, []), (binKey, ['b'])]

/-- The variable map getTargets leaves in c.argReplacements in the
merge-precedence scenario. -/
def rpC1 : SMap Str := [(['X'], ['2']), (cmdKey, []), (binKey, ['b'])]

/-- A command-line argument whose VALUE part contains a newline. -/
def nlArg : Str := ['x', '=', '\n']

/-- A shell oracle for the execution scenarios: the command x fails with
underlying error E, every other command succeeds. -/
def runCmdEx : Str → Option Str := fun c => if c = ['x'] then some ['E'] else none

theorem withResolvedArgsLoop_id (resolveF : Str → Option Str) (l : SMap Str) (s : Str)
    (h : ∀ kv ∈ l, strContains s ('$' :: kv.1) = false) :
    withResolvedArgsLoop resolveF l s = some s := by
  induction l with
  | nil => rfl
  | cons kv rest ih =>
    obtain ⟨k, v⟩ := kv
    have hk : strContains s ('$' :: k) = false := h (k, v) (List.mem_cons_self _ _)
    simp [withResolvedArgsLoop, hk]
    exact ih (fun kv2 hkv2 => h kv2 (List.mem_cons_of_mem _ hkv2))

theorem startsWith_mem (t s : Str) (h : startsWith t s = true) : ∀ c ∈ t, c ∈ s := by
  induction t generalizing s with
  | nil => intro c hc; cases hc
  | cons a t2 ih =>
    cases s with
    | nil => cases h
    | cons b s2 =>
      simp [startsWith] at h
      intro c hc
      rcases List.mem_cons.mp hc with h1 | h2
      · subst h1
        rw [h.1]
        exact List.mem_cons_self _ _
      · exact List.mem_cons_of_mem _ (ih s2 h.2 c h2)

theorem strContains_mem (s t : Str) (h : strContains s t = true) : ∀ c ∈ t, c ∈ s := by
  induction s with
  | nil =>
    cases t with
    | nil => intro c hc; cases hc
    | cons a t2 => cases h
  | cons b s2 ih =>
    simp [strContains] at h
    intro c hc
    rcases h with h | h
    · exact startsWith_mem t _ h c hc
    · exact List.mem_cons_of_mem _ (ih h c hc)

theorem strContains_token_false (v k : Str) (h : ('$' : Char) ∉ v) :
    strContains v ('$' :: k) = false := by
  cases hb : strContains v ('$' :: k) with
  | false => rfl
  | true => exact absurd (strContains_mem v _ hb '$' (List.mem_cons_self _ _)) h

theorem withResolvedArgsLoop_isSome (resolveF : Str → Option Str) (l : SMap Str)
    (h : ∀ kv ∈ l, (resolveF kv.2).isSome = true) (s : Str) :
    (withResolvedArgsLoop resolveF l s).isSome = true := by
  induction l generalizing s with
  | nil => rfl
  | cons kv rest ih =>
    obtain ⟨k, v⟩ := kv
    have hv := h (k, v) (List.mem_cons_self _ _)
    have hrest : ∀ kv2 ∈ rest, (resolveF kv2.2).isSome = true :=
      fun kv2 hkv2 => h kv2 (List.mem_cons_of_mem _ hkv2)
    cases hb : strContains s ('$' :: k) with
    | false =>
      simp [withResolvedArgsLoop, hb]
      exact ih hrest s
    | true =>
      cases hrv : resolveF v with
      | none => rw [hrv] at hv; cases hv
      | some rv =>
        simp [withResolvedArgsLoop, hb, hrv]
        exact ih hrest _

/-- C7: for every variable map V and every string s that contains no
occurrence of the token $KEY for any key KEY of V, resolution is the
identity: withResolvedArgs returns s unchanged (at every positive recursion
depth, so in particular the Go recursion terminates immediately). -/
theorem resolve_identity_when_no_match (V : SMap Str) (s : Str)
    (h : ∀ kv ∈ V, strContains s ('$' :: kv.1) = false) (fuel : Nat) :
    withResolvedArgs V (fuel + 1) s = some s :=
  withResolvedArgsLoop_id _ _ _ h

theorem resolve_identity_when_no_match_witness :
    (∀ kv ∈ ([(['A'], ['1'])] : SMap Str), strContains ['x', 'y'] ('$' :: kv.1) = false)
    ∧ withResolvedArgs [(['A'], ['1'])] 1 ['x', 'y'] = some ['x', 'y'] :=
  ⟨by decide, resolve_identity_when_no_match _ _ (by decide) 0⟩

theorem cexLoop_none (F : Str → Option Str) (h1 : F ['$'] = some ['$'])
    (h2 : F ['$', 'B', 'A'] = none) :
    withResolvedArgsLoop F cexRepl ['$', 'B', 'A'] = none := by
  have c1 : strContains ['$', 'B', 'A'] ('$' :: ['B']) = true := rfl
  have r1 : replaceAll ('$' :: ['B']) ['$'] ['$', 'B', 'A'] = ['$', 'A'] := rfl
  have c2 : strContains ['$', 'A'] ('$' :: ['A']) = true := rfl
  simp [cexRepl, withResolvedArgsLoop, c1, h1, r1, c2, h2]

theorem cex_diverges : resolveDiverges cexRepl ['$', 'B', 'A'] := by
  intro fuel
  induction fuel with
  | zero => rfl
  | succ f ih =>
    cases f with
    | zero => rfl
    | succ f2 =>
      show withResolvedArgsLoop (withResolvedArgs cexRepl (f2 + 1)) cexRepl ['$', 'B', 'A'] = none
      apply cexLoop_none
      · exact withResolvedArgsLoop_id (withResolvedArgs cexRepl f2) cexRepl ['$'] (by decide)
      · exact ih

/-- C6 counterexample: the variable map cexRepl contains no cyclic (direct or
indirect) self-reference — the first conjunct lists its complete
containment-based reference relation over its two keys, which is exactly
A-references-B and nothing else — and yet resolution diverges on the input
text $BA: replacing the token $B inside the value of A creates the token $A
at a concatenation seam, and the resolver then recurses on the value of A
forever.  So the claim that absence of cycles makes resolve total is false. -/
theorem resolve_acyclic_divergence_cex :
    (refersTo cexRepl ['A'] ['B'] = true ∧ refersTo cexRepl ['A'] ['A'] = false
      ∧ refersTo cexRepl ['B'] ['A'] = false ∧ refersTo cexRepl ['B'] ['B'] = false)
    ∧ resolveDiverges cexRepl ['$', 'B', 'A'] :=
  ⟨by decide, cex_diverges⟩

/-- C6 amended: resolve is total — the Go recursion of withResolvedArgs
terminates on every input string (depth 2 always suffices and the result is
defined) — for every variable map none of whose values contains the
character dollar, i.e. when no value references any variable.  (Mere absence
of cyclic references is not enough: see the counterexample, where replacement
seams manufacture new tokens.) -/
theorem resolve_total_of_no_dollar (repl : SMap Str)
    (h : ∀ kv ∈ repl, ('$' : Char) ∉ kv.2) (s : Str) (fuel : Nat) :
    (withResolvedArgs repl (fuel + 2) s).isSome = true := by
  have hvals : ∀ kv ∈ repl, (withResolvedArgs repl (fuel + 1) kv.2).isSome = true := by
    intro kv hkv
    have hid : withResolvedArgs repl (fuel + 1) kv.2 = some kv.2 :=
      withResolvedArgsLoop_id _ _ _
        (fun kv2 _ => strContains_token_false _ _ (h kv hkv))
    rw [hid]; rfl
  exact withResolvedArgsLoop_isSome _ _ hvals s

theorem resolve_total_of_no_dollar_witness :
    (∀ kv ∈ ([(['A'], ['1'])] : SMap Str), ('$' : Char) ∉ kv.2)
    ∧ (withResolvedArgs [(['A'], ['1'])] 2 ['$', 'A']).isSome = true :=
  ⟨by decide, resolve_total_of_no_dollar _ (by decide) _ 0⟩

theorem smFind_insertAll_nil {V : Type} (u : SMap V) (k : Str)
    (hnd : (smKeys u).Nodup) : smFind (insertAll [] u) k = smFind u k := by
  rw [smFind_insertAll _ _ _ hnd]
  cases h : smFind u k <;> simp [smFind]

theorem rangeWrite_find {V : Type} (b u mt : Option (SMap V)) (hnd : nodupKeysO u)
    (h : rangeWrite b u = some mt) :
    (∀ k v, smFindO u k = some v → smFindO mt k = some v)
    ∧ (∀ k, smFindO u k = none → smFindO mt k = smFindO b k) := by
  cases u with
  | none =>
    have hmt : b = mt := Option.some.inj h
    subst hmt
    refine ⟨?_, fun k _ => rfl⟩
    intro k v hkv
    simp [smFindO] at hkv
  | some l =>
    cases l with
    | nil =>
      have hmt : b = mt := Option.some.inj h
      subst hmt
      refine ⟨?_, fun k _ => rfl⟩
      intro k v hkv
      simp [smFindO, smFind] at hkv
    | cons x l2 =>
      cases b with
      | none => cases h
      | some bl =>
        have hmt : some (insertAll bl (x :: l2)) = mt := Option.some.inj h
        subst hmt
        have hnd2 : (smKeys (x :: l2)).Nodup := hnd
        constructor
        · intro k v hkv
          simp only [smFindO] at hkv ⊢
          rw [smFind_insertAll _ _ _ hnd2, hkv]
        · intro k hkv
          simp only [smFindO] at hkv ⊢
          rw [smFind_insertAll _ _ _ hnd2, hkv]

theorem rangeWrite_some_base {V : Type} (b : SMap V) (u : Option (SMap V)) :
    ∃ mt, rangeWrite (some b) u = some mt := by
  cases u with
  | none => exact ⟨some b, rfl⟩
  | some l =>
    cases l with
    | nil => exact ⟨some b, rfl⟩
    | cons x l2 => exact ⟨some (insertAll b (x :: l2)), rfl⟩

theorem mergeTargets_inv (d t : TargetsM) (ar : SMap Str) (m : TargetsM) (ar2 : SMap Str)
    (h : mergeTargets d t ar = some (m, ar2)) :
    rangeWrite d.targets t.targets = some m.targets
    ∧ rangeWrite d.vars t.vars = some m.vars
    ∧ ar2 = copyVars m.vars ar := by
  simp only [mergeTargets] at h
  cases hr1 : rangeWrite d.targets t.targets with
  | none => rw [hr1] at h; cases h
  | some mt =>
    rw [hr1] at h
    cases hr2 : rangeWrite d.vars t.vars with
    | none => rw [hr2] at h; cases h
    | some mv =>
      rw [hr2] at h
      simp only [Option.some.injEq, Prod.mk.injEq] at h
      obtain ⟨hm, har⟩ := h
      subst hm
      exact ⟨rfl, rfl, har.symm⟩

theorem mergeTargets_empty_left (t : TargetsM) (ar : SMap Str)
    (hn1 : nodupKeysO t.targets) (hn2 : nodupKeysO t.vars) :
    ∃ m ar2, mergeTargets emptyTargets t ar = some (m, ar2)
      ∧ (∀ k, smFindO m.targets k = smFindO t.targets k)
      ∧ (∀ k, smFindO m.vars k = smFindO t.vars k) := by
  obtain ⟨mt, h1⟩ := rangeWrite_some_base ([] : SMap (List Str)) t.targets
  obtain ⟨mv, h2⟩ := rangeWrite_some_base ([] : SMap Str) t.vars
  have hm : mergeTargets emptyTargets t ar = some (⟨mt, mv⟩, copyVars mv ar) := by
    simp only [mergeTargets, emptyTargets]
    rw [h1, h2]
  obtain ⟨f1, f2⟩ := rangeWrite_find _ _ _ hn1 h1
  obtain ⟨g1, g2⟩ := rangeWrite_find _ _ _ hn2 h2
  refine ⟨⟨mt, mv⟩, copyVars mv ar, hm, ?_, ?_⟩
  · intro k
    show smFindO mt k = smFindO t.targets k
    cases hv : smFindO t.targets k with
    | some v => exact f1 k v hv
    | none =>
      have h0 : smFindO (some ([] : SMap (List Str))) k = none := rfl
      exact (f2 k hv).trans h0
  · intro k
    show smFindO mv k = smFindO t.vars k
    cases hv : smFindO t.vars k with
    | some v => exact g1 k v hv
    | none =>
      have h0 : smFindO (some ([] : SMap Str)) k = none := rfl
      exact (g2 k hv).trans h0

/-- C3: getTargets fails iff both the user-global and the project-local load
fail, and in that case the surfaced error is the local-load (thisDirErr)
error; when exactly one load fails, the failed source is replaced by empty
definitions (emptyTargets has freshly made, non-nil maps, so the merge
cannot panic in these branches) and the contents of the other source are
used alone, with no error. -/
theorem getTargets_load_failure_policy (defaultRes thisRes : Except Str TargetsM)
    (ar : SMap Str) :
    ((∃ e, getTargets defaultRes thisRes ar = some (.error e)) ↔
      ((∃ ed, defaultRes = .error ed) ∧ ∃ et, thisRes = .error et))
    ∧ (∀ ed et, defaultRes = .error ed → thisRes = .error et →
        getTargets defaultRes thisRes ar = some (.error et))
    ∧ (∀ ed tt, defaultRes = .error ed → thisRes = .ok tt →
        nodupKeysO tt.targets → nodupKeysO tt.vars →
        ∃ m ar2, getTargets defaultRes thisRes ar = some (.ok (m, ar2))
          ∧ (∀ k, smFindO m.targets k = smFindO tt.targets k)
          ∧ (∀ k, smFindO m.vars k = smFindO tt.vars k))
    ∧ (∀ dt et, defaultRes = .ok dt → thisRes = .error et →
        ∃ m ar2, getTargets defaultRes thisRes ar = some (.ok (m, ar2))
          ∧ m.targets = dt.targets ∧ m.vars = dt.vars) := by
  cases defaultRes with
  | error ed0 =>
    cases thisRes with
    | error et0 =>
      refine ⟨⟨fun _ => ⟨⟨ed0, rfl⟩, ⟨et0, rfl⟩⟩, fun _ => ⟨et0, rfl⟩⟩, ?_, ?_, ?_⟩
      · intro ed et _ ht
        obtain rfl : et0 = et := Except.error.inj ht
        rfl
      · intro ed tt _ ht
        cases ht
      · intro dt et hd _
        cases hd
    | ok tt0 =>
      have hiota : getTargets (.error ed0) (.ok tt0) ar
          = (match mergeTargets emptyTargets tt0 ar with
             | none => none
             | some merged => some (.ok merged)) := rfl
      refine ⟨⟨?_, ?_⟩, ?_, ?_, ?_⟩
      · rintro ⟨e, he⟩
        rw [hiota] at he
        cases hm : mergeTargets emptyTargets tt0 ar with
        | none => rw [hm] at he; cases he
        | some r => rw [hm] at he; simp at he
      · rintro ⟨⟨ed, _⟩, ⟨et, ht⟩⟩
        cases ht
      · intro ed et _ ht
        cases ht
      · intro ed tt _ ht hn1 hn2
        obtain rfl : tt0 = tt := Except.ok.inj ht
        obtain ⟨m, ar2, hmerge, hta, hva⟩ := mergeTargets_empty_left tt0 ar hn1 hn2
        refine ⟨m, ar2, ?_, hta, hva⟩
        rw [hiota, hmerge]
      · intro dt et hd _
        cases hd
  | ok dt0 =>
    cases thisRes with
    | error et0 =>
      have hgt : getTargets (.ok dt0) (.error et0) ar
          = some (.ok (⟨dt0.targets, dt0.vars⟩, copyVars dt0.vars ar)) := rfl
      refine ⟨⟨?_, ?_⟩, ?_, ?_, ?_⟩
      · rintro ⟨e, he⟩
        rw [hgt] at he
        simp at he
      · rintro ⟨⟨ed, hd⟩, _⟩
        cases hd
      · intro ed et hd _
        cases hd
      · intro ed tt hd _
        cases hd
      · intro dt et hd _
        obtain rfl : dt0 = dt := Except.ok.inj hd
        exact ⟨⟨dt0.targets, dt0.vars⟩, copyVars dt0.vars ar, hgt, rfl, rfl⟩
    | ok tt0 =>
      have hiota : getTargets (.ok dt0) (.ok tt0) ar
          = (match mergeTargets dt0 tt0 ar with
             | none => none
             | some merged => some (.ok merged)) := rfl
      refine ⟨⟨?_, ?_⟩, ?_, ?_, ?_⟩
      · rintro ⟨e, he⟩
        rw [hiota] at he
        cases hm : mergeTargets dt0 tt0 ar with
        | none => rw [hm] at he; cases he
        | some r => rw [hm] at he; simp at he
      · rintro ⟨⟨ed, hd⟩, _⟩
        cases hd
      · intro ed et hd _
        cases hd
      · intro ed tt hd _
        cases hd
      · intro dt et _ ht
        cases ht

theorem getTargets_load_failure_policy_witness :
    getTargets (.error ['d']) (.error ['t']) [] = some (.error ['t']) :=
  (getTargets_load_failure_policy (.error ['d']) (.error ['t']) []).2.1 ['d'] ['t'] rfl rfl

/-- C4 counterexample: a successfully loaded global file whose targets
section is absent leaves a nil Go map in the struct; when the local file
then defines a target (here b, with a one-command list), the merge loop at
torto.go:82-84 writes into that nil map and the program panics (assignment
to entry in nil map) instead of producing any merged mapping, so the claimed
universal local-wins merge result does not exist for these sources. -/
theorem getTargets_nil_section_panic_cex :
    smFindO (⟨some [(['b'], [['c']])], some []⟩ : TargetsM).targets ['b'] = some [['c']]
    ∧ getTargets (.ok ⟨none, some []⟩) (.ok ⟨some [(['b'], [['c']])], some []⟩) [] = none := by
  decide

/-- C4 amended: whenever the merge completes — which it does unless a
non-empty local section meets a nil (absent) global section, in which case
the program panics instead — the merged TargetDefinitions map each target
name bound by the local source to exactly the local command list (replacing,
never concatenating with, any global list of the same name) and each name
bound only by the global source to the global list, and the merged variable
mapping is merged the same way (local wins per key). -/
theorem getTargets_merge_local_wins (dt tt : TargetsM) (ar : SMap Str)
    (hndT : nodupKeysO tt.targets) (hndV : nodupKeysO tt.vars)
    (m : TargetsM) (ar2 : SMap Str)
    (h : getTargets (.ok dt) (.ok tt) ar = some (.ok (m, ar2))) :
    (∀ k v, smFindO tt.targets k = some v → smFindO m.targets k = some v)
    ∧ (∀ k, smFindO tt.targets k = none → smFindO m.targets k = smFindO dt.targets k)
    ∧ (∀ k v, smFindO tt.vars k = some v → smFindO m.vars k = some v)
    ∧ (∀ k, smFindO tt.vars k = none → smFindO m.vars k = smFindO dt.vars k) := by
  have hiota : getTargets (.ok dt) (.ok tt) ar
      = (match mergeTargets dt tt ar with
         | none => none
         | some merged => some (.ok merged)) := rfl
  rw [hiota] at h
  cases hm : mergeTargets dt tt ar with
  | none => rw [hm] at h; cases h
  | some r =>
    rw [hm] at h
    simp only [Option.some.injEq, Except.ok.injEq] at h
    subst h
    obtain ⟨h1, h2, _⟩ := mergeTargets_inv dt tt ar m ar2 hm
    obtain ⟨f1, f2⟩ := rangeWrite_find _ _ _ hndT h1
    obtain ⟨g1, g2⟩ := rangeWrite_find _ _ _ hndV h2
    exact ⟨f1, f2, g1, g2⟩

theorem getTargets_merge_local_wins_witness :
    smFindO (some [(['b'], [['c']])]) ['b'] = some [['c']] := by
  have h := (getTargets_merge_local_wins ⟨some [(['b'], [['a']])], some []⟩
      ⟨some [(['b'], [['c']])], some []⟩ [] (by decide) (by decide)
      ⟨some [(['b'], [['c']])], some []⟩ [] (by decide)).1 ['b'] [['c']] (by decide)
  exact h

/-- C1 counterexample: with global variable X=1, local variable X=2 and
caller argument X=3 (arC1 is the caller map, holding X=3 plus the reserved
CMD and BIN entries), the loop at torto.go:89-91 copies the merged
file-defined variables over c.argReplacements, so the map used for
resolution binds X to the file value 2, not to the caller value 3, and
resolving $X yields 2 — the claim that caller-supplied keys take precedence
over file-defined variables is false. -/
theorem getTargets_caller_precedence_cex :
    smFind arC1 ['X'] = some ['3']
    ∧ getTargets (.ok gvC1) (.ok lvC1) arC1 = some (.ok (lvC1, rpC1))
    ∧ smFind rpC1 ['X'] = some ['2']
    ∧ withResolvedArgs rpC1 2 ['$', 'X'] = some ['2'] := by
  decide

theorem getTargets_ok_inv (defaultRes thisRes : Except Str TargetsM) (ar : SMap Str)
    (m : TargetsM) (ar2 : SMap Str)
    (h : getTargets defaultRes thisRes ar = some (.ok (m, ar2))) :
    ar2 = copyVars m.vars ar := by
  cases defaultRes with
  | error ed =>
    cases thisRes with
    | error et => simp [getTargets] at h
    | ok tt =>
      have hiota : getTargets (.error ed) (.ok tt) ar
          = (match mergeTargets emptyTargets tt ar with
             | none => none
             | some merged => some (.ok merged)) := rfl
      rw [hiota] at h
      cases hm : mergeTargets emptyTargets tt ar with
      | none => rw [hm] at h; cases h
      | some r =>
        rw [hm] at h
        simp only [Option.some.injEq, Except.ok.injEq] at h
        subst h
        exact (mergeTargets_inv _ _ _ _ _ hm).2.2
  | ok dt =>
    cases thisRes with
    | error et =>
      have hgt : getTargets (.ok dt) (.error et) ar
          = some (.ok (⟨dt.targets, dt.vars⟩, copyVars dt.vars ar)) := rfl
      rw [hgt] at h
      simp only [Option.some.injEq, Except.ok.injEq, Prod.mk.injEq] at h
      obtain ⟨hm, har⟩ := h
      subst hm
      exact har.symm
    | ok tt =>
      have hiota : getTargets (.ok dt) (.ok tt) ar
          = (match mergeTargets dt tt ar with
             | none => none
             | some merged => some (.ok merged)) := rfl
      rw [hiota] at h
      cases hm : mergeTargets dt tt ar with
      | none => rw [hm] at h; cases h
      | some r =>
        rw [hm] at h
        simp only [Option.some.injEq, Except.ok.injEq] at h
        subst h
        exact (mergeTargets_inv _ _ _ _ _ hm).2.2

/-- C1 amended: for every variable name present in the merged file-defined
variable mapping, the variable map used for resolution binds that name to
the file-defined (merged) value — file-defined variables override
caller-supplied and reserved (CMD, BIN) entries of the same name, the
reverse of the claimed precedence; in particular with global X=1, local X=2
and caller argument X=3, resolving $X yields 2. -/
theorem getTargets_file_vars_override (defaultRes thisRes : Except Str TargetsM)
    (ar : SMap Str) (m : TargetsM) (ar2 : SMap Str)
    (h : getTargets defaultRes thisRes ar = some (.ok (m, ar2)))
    (hnd : nodupKeysO m.vars) (k v : Str)
    (hk : smFindO m.vars k = some v) : smFind ar2 k = some v := by
  have har : ar2 = copyVars m.vars ar := getTargets_ok_inv defaultRes thisRes ar m ar2 h
  cases hmv : m.vars with
  | none =>
    rw [hmv] at hk
    simp [smFindO] at hk
  | some l =>
    have hndl : (smKeys l).Nodup := by
      have hx := hnd
      rw [hmv] at hx
      exact hx
    rw [hmv] at hk har
    simp only [smFindO] at hk
    rw [har]
    simp only [copyVars]
    rw [smFind_insertAll _ _ _ hndl, hk]

theorem getTargets_file_vars_override_witness :
    smFind rpC1 ['X'] = some ['2'] :=
  getTargets_file_vars_override (.ok gvC1) (.ok lvC1) arC1 lvC1 rpC1
    (by decide) (by decide) ['X'] ['2'] (by decide)

/-- C2: with debug off, if force is false then the first failing command
aborts the run — exactly the commands up to and including it are executed
and its underlying error is the overall result — while with force true every
command in the sequence is attempted and the overall result is nil. -/
theorem Execute_force_semantics (runCmd : Str → Option Str) (repl : SMap Str)
    (fuel : Nat) (cmds rcmds : List Str)
    (hres : mapOpt (withResolvedArgs repl fuel) cmds = some rcmds) :
    (∀ p c q e, rcmds = p ++ c :: q → (∀ x ∈ p, runCmd x = none) → runCmd c = some e →
        Execute runCmd repl fuel false false cmds = some (p ++ [c], some e))
    ∧ Execute runCmd repl fuel true false cmds = some (rcmds, none) := by
  induction cmds generalizing rcmds with
  | nil =>
    simp [mapOpt] at hres
    subst hres
    constructor
    · intro p c q e hdec _ _
      cases p <;> simp at hdec
    · rfl
  | cons v rest ih =>
    simp only [mapOpt] at hres
    cases hv : withResolvedArgs repl fuel v with
    | none =>
      rw [hv] at hres
      cases hres
    | some c0 =>
      rw [hv] at hres
      cases hrest : mapOpt (withResolvedArgs repl fuel) rest with
      | none =>
        rw [hrest] at hres
        cases hres
      | some rs =>
        rw [hrest] at hres
        have hrc : rcmds = c0 :: rs := (Option.some.inj hres).symm
        subst hrc
        obtain ⟨ih1, ih2⟩ := ih rs hrest
        constructor
        · intro p c q e hdec hp hc
          cases p with
          | nil =>
            simp only [List.nil_append] at hdec
            have h1 : c0 = c := (List.cons.inj hdec).1
            subst h1
            simp [Execute, hv, hc]
          | cons p0 ps =>
            simp only [List.cons_append] at hdec
            have h1 : c0 = p0 := (List.cons.inj hdec).1
            have h2 : rs = ps ++ c :: q := (List.cons.inj hdec).2
            have hp0 : runCmd p0 = none := hp p0 (List.mem_cons_self _ _)
            have hrec := ih1 ps c q e h2 (fun x hx => hp x (List.mem_cons_of_mem _ hx)) hc
            simp [Execute, hv, hp0, hrec, h1]
        · simp only [Execute]
          rw [hv]
          simp only [Bool.false_eq_true, if_false]
          cases hc : runCmd c0 with
          | none => simp [ih2]
          | some err => simp [ih2]

theorem Execute_force_semantics_witness :
    Execute runCmdEx [] 1 false false [['x'], ['y']] = some ([['x']], some ['E'])
    ∧ Execute runCmdEx [] 1 true false [['x'], ['y']] = some ([['x'], ['y']], none) :=
  ⟨(Execute_force_semantics runCmdEx [] 1 [['x'], ['y']] [['x'], ['y']] (by decide)).1
      [] ['x'] [['y']] ['E'] (by decide) (by decide) (by decide),
   (Execute_force_semantics runCmdEx [] 1 [['x'], ['y']] [['x'], ['y']] (by decide)).2⟩

theorem Execute_debug_no_error (runCmd : Str → Option Str) (repl : SMap Str)
    (fuel : Nat) (force : Bool) (cmds : List Str) :
    ∀ r, Execute runCmd repl fuel force true cmds = some r → r.2 = none := by
  induction cmds with
  | nil =>
    intro r h
    have : (([], none) : List Str × Option Str) = r := Option.some.inj h
    rw [← this]
  | cons v rest ih =>
    intro r h
    simp only [Execute] at h
    cases hv : withResolvedArgs repl fuel v with
    | none => rw [hv] at h; cases h
    | some c0 =>
      rw [hv] at h
      simp only [if_true] at h
      exact ih r h

theorem Execute_force_no_error (runCmd : Str → Option Str) (repl : SMap Str)
    (fuel : Nat) (dbg : Bool) (cmds : List Str) :
    ∀ r, Execute runCmd repl fuel true dbg cmds = some r → r.2 = none := by
  induction cmds with
  | nil =>
    intro r h
    have : (([], none) : List Str × Option Str) = r := Option.some.inj h
    rw [← this]
  | cons v rest ih =>
    intro r h
    simp only [Execute] at h
    cases hv : withResolvedArgs repl fuel v with
    | none => rw [hv] at h; cases h
    | some c0 =>
      rw [hv] at h
      cases hd : dbg with
      | true =>
        subst hd
        simp only [if_true] at h
        exact ih r h
      | false =>
        subst hd
        simp only [Bool.false_eq_true, if_false] at h
        cases hc : runCmd c0 with
        | none =>
          rw [hc] at h
          obtain ⟨r2, hr2, hmap⟩ := Option.map_eq_some'.mp h
          rw [← hmap]
          exact ih r2 hr2
        | some err =>
          rw [hc] at h
          simp only [if_true] at h
          obtain ⟨r2, hr2, hmap⟩ := Option.map_eq_some'.mp h
          rw [← hmap]
          exact ih r2 hr2

theorem Execute_error_mem (runCmd : Str → Option Str) (repl : SMap Str)
    (fuel : Nat) (cmds ex : List Str) (e : Str)
    (h : Execute runCmd repl fuel false false cmds = some (ex, some e)) :
    ∃ c, c ∈ ex ∧ runCmd c = some e := by
  induction cmds generalizing ex with
  | nil => simp [Execute] at h
  | cons v rest ih =>
    simp only [Execute] at h
    cases hv : withResolvedArgs repl fuel v with
    | none => rw [hv] at h; cases h
    | some c0 =>
      rw [hv] at h
      simp only [Bool.false_eq_true, if_false] at h
      cases hc : runCmd c0 with
      | none =>
        rw [hc] at h
        obtain ⟨r2, hr2, hmap⟩ := Option.map_eq_some'.mp h
        have hx : ex = c0 :: r2.1 := ((Prod.mk.injEq _ _ _ _).mp hmap).1.symm
        have he2 : r2.2 = some e := ((Prod.mk.injEq _ _ _ _).mp hmap).2
        obtain ⟨c, hc1, hc2⟩ := ih r2.1 (by rw [← he2, hr2])
        exact ⟨c, by rw [hx]; exact List.mem_cons_of_mem _ hc1, hc2⟩
      | some err =>
        rw [hc] at h
        simp only [Bool.false_eq_true, if_false] at h
        have hpair := Option.some.inj h
        have hx : ex = [c0] := ((Prod.mk.injEq _ _ _ _).mp hpair).1.symm
        have he2 : some err = some e := ((Prod.mk.injEq _ _ _ _).mp hpair).2
        refine ⟨c0, by rw [hx]; exact List.mem_cons_self _ _, ?_⟩
        rw [hc, he2]

/-- C9: Execute returns a non-nil error only when force and debug are both
false and some executed command failed with that underlying error;
equivalently, whenever debug or force is true, any defined run of Execute
returns nil no matter how many commands fail. -/
theorem Execute_error_requires_no_force_no_debug (runCmd : Str → Option Str)
    (repl : SMap Str) (fuel : Nat) (force dbg : Bool) (cmds ex : List Str) (e : Str)
    (h : Execute runCmd repl fuel force dbg cmds = some (ex, some e)) :
    force = false ∧ dbg = false ∧ ∃ c, c ∈ ex ∧ runCmd c = some e := by
  cases hf : force with
  | true =>
    rw [hf] at h
    have := Execute_force_no_error runCmd repl fuel dbg cmds (ex, some e) h
    cases this
  | false =>
    cases hd : dbg with
    | true =>
      rw [hf, hd] at h
      have := Execute_debug_no_error runCmd repl fuel false cmds (ex, some e) h
      cases this
    | false =>
      rw [hf, hd] at h
      exact ⟨rfl, rfl, Execute_error_mem runCmd repl fuel cmds ex e h⟩

theorem Execute_error_requires_no_force_no_debug_witness :
    false = false ∧ false = false ∧ ∃ c, c ∈ [['x']] ∧ runCmdEx c = some ['E'] :=
  Execute_error_requires_no_force_no_debug runCmdEx [] 1 false false [['x']] [['x']] ['E']
    (by decide)

theorem smKeys_mem_smInsert_of_mem {V : Type} (m : SMap V) (k : Str) (v : V) (k' : Str)
    (h : k' ∈ smKeys m) : k' ∈ smKeys (smInsert m k v) := by
  induction m with
  | nil => cases h
  | cons kv rest ih =>
    obtain ⟨k0, v0⟩ := kv
    by_cases h0 : k0 = k
    · subst h0
      simp [smKeys] at h
      simp [smInsert, smKeys]
      rcases h with h | h
      · exact Or.inl h
      · exact Or.inr h
    · simp [smKeys] at h
      simp [smInsert, h0, smKeys]
      rcases h with h | h
      · exact Or.inl h
      · exact Or.inr (by simpa [smKeys] using ih h)

theorem smKeys_mem_smInsert_self {V : Type} (m : SMap V) (k : Str) (v : V) :
    k ∈ smKeys (smInsert m k v) := by
  induction m with
  | nil => simp [smInsert, smKeys]
  | cons kv rest ih =>
    obtain ⟨k0, v0⟩ := kv
    by_cases h0 : k0 = k
    · subst h0
      simp [smInsert, smKeys]
    · simp [smInsert, h0, smKeys]
      exact Or.inr (by simpa [smKeys] using ih)

theorem findStringSubmatch_spec (arg : Str) (h : findStringSubmatch arg ≠ []) :
    ∃ name value, findStringSubmatch arg = [arg, name, value]
      ∧ isAssign arg name value
      ∧ argValue (findStringSubmatch arg) = some value := by
  have harg := List.takeWhile_append_dropWhile isAlnumGo arg
  simp only [findStringSubmatch] at h
  split at h
  next value heq =>
    by_cases hcond : List.takeWhile isAlnumGo arg ≠ [] ∧ value ≠ [] ∧ '\n' ∉ value
    · have hfs : findStringSubmatch arg = [arg, List.takeWhile isAlnumGo arg, value] := by
        simp only [findStringSubmatch]
        rw [heq]
        exact if_pos hcond
      refine ⟨List.takeWhile isAlnumGo arg, value, hfs,
        ⟨⟨?_, hcond.1, ?_, hcond.2.1⟩, hcond.2.2⟩, ?_⟩
      · conv_lhs => rw [← harg]
        rw [heq]
      · intro c hc
        exact List.mem_takeWhile_imp hc
      · rw [hfs]
        simp [argValue, hcond.2.1]
    · rw [if_neg hcond] at h
      exact absurd rfl h
  next =>
    exact absurd rfl h

/-- C10: whenever an argument matches the classification regex, the second
capture group (the VALUE part) is non-empty, so the value computation takes
the matches-2 branch and never consults index 3; consequently parsing never
performs an out-of-range slice access (the modelled panic outcome of
getTargetNameAndRunArgs never occurs). -/
theorem parse_capture_nonempty_no_oob :
    (∀ arg : Str, findStringSubmatch arg ≠ [] →
        ∃ name value, findStringSubmatch arg = [arg, name, value] ∧ value ≠ []
          ∧ argValue (findStringSubmatch arg) = some value)
    ∧ ∀ (exePath : Except Str Str) (args : List Str),
        (getTargetNameAndRunArgs exePath args).isSome = true := by
  have hpart1 : ∀ arg : Str, findStringSubmatch arg ≠ [] →
      ∃ name value, findStringSubmatch arg = [arg, name, value] ∧ value ≠ []
        ∧ argValue (findStringSubmatch arg) = some value := by
    intro arg h
    obtain ⟨name, value, hshape, hassign, hav⟩ := findStringSubmatch_spec arg h
    exact ⟨name, value, hshape, hassign.1.2.2.2, hav⟩
  have hloop : ∀ (args : List Str) (ra : SMap Str) (res : List Str),
      (parseLoop args ra res).isSome = true := by
    intro args
    induction args with
    | nil => intro ra res; rfl
    | cons arg rest ih =>
      intro ra res
      by_cases hm : findStringSubmatch arg = []
      · simp [parseLoop, hm]
        exact ih ra (res ++ [arg])
      · obtain ⟨name, value, hshape, hvne, hav⟩ := hpart1 arg hm
        rw [hshape] at hav
        simp [parseLoop, hshape, hav]
        exact ih (smInsert ra name value) res
  refine ⟨hpart1, ?_⟩
  intro exePath args
  unfold getTargetNameAndRunArgs
  cases hp : parseLoop args [] [] with
  | none =>
    have := hloop args [] []
    rw [hp] at this
    cases this
  | some pr =>
    obtain ⟨ra, residual⟩ := pr
    cases residual with
    | nil => rfl
    | cons t rest => cases exePath <;> rfl

theorem parse_capture_nonempty_no_oob_witness :
    ∃ name value, findStringSubmatch ['A', '=', 'b'] = [['A', '=', 'b'], name, value]
      ∧ value ≠ [] ∧ argValue (findStringSubmatch ['A', '=', 'b']) = some value :=
  parse_capture_nonempty_no_oob.1 ['A', '=', 'b'] (by decide)

theorem takeWhile_all_append (p : Char → Bool) (n : Str) (x : Char) (t : Str)
    (hn : ∀ c ∈ n, p c = true) (hx : p x = false) :
    (n ++ x :: t).takeWhile p = n ∧ (n ++ x :: t).dropWhile p = x :: t := by
  induction n with
  | nil => simp [List.takeWhile_cons, List.dropWhile_cons, hx]
  | cons a n2 ih =>
    have ha : p a = true := hn a (List.mem_cons_self _ _)
    have hrest : ∀ c ∈ n2, p c = true := fun c hc => hn c (List.mem_cons_of_mem _ hc)
    obtain ⟨ih1, ih2⟩ := ih hrest
    simp [List.takeWhile_cons, List.dropWhile_cons, ha, ih1, ih2]

theorem isAssign_iff_match (a : Str) :
    (∃ n v, isAssign a n v) ↔ findStringSubmatch a ≠ [] := by
  constructor
  · rintro ⟨n, v, ⟨⟨ha, hn, hna, hv⟩, hnl⟩⟩
    subst ha
    have heq : isAlnumGo '=' = false := rfl
    obtain ⟨ht, hd⟩ := takeWhile_all_append isAlnumGo n '=' v hna heq
    simp [findStringSubmatch, ht, hd, hn, hv, hnl]
  · intro h
    obtain ⟨name, value, _, hassign, _⟩ := findStringSubmatch_spec a h
    exact ⟨name, value, hassign⟩

theorem parseLoop_spec (args : List Str) : ∀ ra res,
    ∃ ra2, parseLoop args ra res
        = some (ra2, res ++ args.filter (fun a => (findStringSubmatch a).isEmpty))
      ∧ (∀ k, k ∈ smKeys ra → k ∈ smKeys ra2)
      ∧ (∀ a ∈ args, ∀ n v, findStringSubmatch a = [a, n, v] → n ∈ smKeys ra2) := by
  induction args with
  | nil =>
    intro ra res
    exact ⟨ra, by simp [parseLoop], fun k hk => hk, by simp⟩
  | cons arg rest ih =>
    intro ra res
    by_cases hm : findStringSubmatch arg = []
    · obtain ⟨ra2, hp, hmono, hall⟩ := ih ra (res ++ [arg])
      refine ⟨ra2, ?_, hmono, ?_⟩
      · simp only [parseLoop, hm]
        rw [hp]
        simp [List.filter_cons, hm]
      · intro a ha n v hfind
        rcases List.mem_cons.mp ha with rfl | ha2
        · rw [hm] at hfind
          cases hfind
        · exact hall a ha2 n v hfind
    · obtain ⟨name, value, hshape, hassign, hav⟩ := findStringSubmatch_spec arg hm
      rw [hshape] at hav
      obtain ⟨ra2, hp, hmono, hall⟩ := ih (smInsert ra name value) res
      refine ⟨ra2, ?_, ?_, ?_⟩
      · simp only [parseLoop, hshape, hav, List.get?]
        rw [hp]
        have hfe : (findStringSubmatch arg).isEmpty = false := by
          rw [hshape]; rfl
        simp [List.filter_cons, hfe]
      · intro k hk
        exact hmono k (smKeys_mem_smInsert_of_mem ra name value k hk)
      · intro a ha n v hfind
        rcases List.mem_cons.mp ha with rfl | ha2
        · rw [hshape] at hfind
          have hn : name = n := (List.cons.inj (List.cons.inj hfind).2).1
          subst hn
          exact hmono name (smKeys_mem_smInsert_self ra name value)
        · exact hall a ha2 n v hfind

theorem parseLoop_lastAssign (args : List Str) : ∀ ra res ra2 res2,
    parseLoop args ra res = some (ra2, res2) → ∀ n,
    smFind ra2 n = (match lastAssign args n with
      | some v => some v
      | none => smFind ra n) := by
  induction args with
  | nil =>
    intro ra res ra2 res2 hp n
    simp only [parseLoop, Option.some.injEq, Prod.mk.injEq] at hp
    rw [← hp.1]
    rfl
  | cons arg rest ih =>
    intro ra res ra2 res2 hp n
    by_cases hm : findStringSubmatch arg = []
    · simp only [parseLoop, hm] at hp
      have hrec := ih ra (res ++ [arg]) ra2 res2 hp n
      rw [hrec]
      cases hl : lastAssign rest n with
      | some v => simp [lastAssign, hm, hl]
      | none => simp [lastAssign, hm, hl]
    · obtain ⟨name, value, hshape, _, hav⟩ := findStringSubmatch_spec arg hm
      rw [hshape] at hav
      simp only [parseLoop, hshape, hav, List.get?] at hp
      have hrec := ih (smInsert ra name value) res ra2 res2 hp n
      rw [hrec]
      cases hl : lastAssign rest n with
      | some v => simp [lastAssign, hshape, hl]
      | none =>
        simp only [lastAssign, hshape, hl]
        rw [smFind_smInsert]
        by_cases hnn : name = n
        · simp [hnn]
        · simp [hnn]

/-- C5 amended: parsing partitions arguments by the pattern NAME=VALUE with
NAME one-or-more alphanumerics and VALUE one-or-more non-newline characters
(non-empty) — the newline restriction is what the Go regexp actually
enforces, since `.` does not match a newline and `$` anchors at end of text.
Matching arguments become variable-map entries: outside the reserved keys
CMD and BIN, the parsed map binds each NAME to the VALUE of its last
matching occurrence (lastAssign) and nothing else; non-matching arguments
form the ordered residual sequence; an empty residual fails with the
missing-target error, otherwise the first residual argument is the target
name and the reserved key CMD is bound to the remaining residual arguments
joined with single spaces. -/
theorem parse_partition_spec (programArgs : List Str) (path : Str) :
    (∀ a : Str, (∃ n v, isAssign a n v) ↔ findStringSubmatch a ≠ [])
    ∧ (programArgs.filter (fun a => (findStringSubmatch a).isEmpty) = [] →
        getTargetNameAndRunArgs (.ok path) programArgs
          = some (.error "target missing. check usage with -h".data))
    ∧ ∀ t rest, programArgs.filter (fun a => (findStringSubmatch a).isEmpty) = t :: rest →
        ∃ ra, getTargetNameAndRunArgs (.ok path) programArgs = some (.ok (t, ra))
          ∧ smFind ra cmdKey = some (joinSpace rest)
          ∧ smFind ra binKey = some path
          ∧ (∀ n, n ≠ cmdKey → n ≠ binKey → smFind ra n = lastAssign programArgs n)
          ∧ ∀ a ∈ programArgs, ∀ n v, findStringSubmatch a = [a, n, v] → n ∈ smKeys ra := by
  obtain ⟨ra0, hp, _, hall⟩ := parseLoop_spec programArgs [] []
  rw [List.nil_append] at hp
  refine ⟨isAssign_iff_match, ?_, ?_⟩
  · intro hres
    rw [hres] at hp
    unfold getTargetNameAndRunArgs
    rw [hp]
  · intro t rest hres
    rw [hres] at hp
    refine ⟨smInsert (smInsert ra0 cmdKey (joinSpace rest)) binKey path, ?_, ?_, ?_, ?_, ?_⟩
    · unfold getTargetNameAndRunArgs
      rw [hp]
    · rw [smFind_smInsert]
      have hbc : ¬ binKey = cmdKey := by decide
      rw [if_neg hbc, smFind_smInsert, if_pos rfl]
    · rw [smFind_smInsert, if_pos rfl]
    · intro n hnc hnb
      have hla := parseLoop_lastAssign programArgs [] [] ra0 _ hp n
      rw [smFind_smInsert, if_neg (fun hc => hnb hc.symm), smFind_smInsert,
          if_neg (fun hc => hnc hc.symm), hla]
      cases hl : lastAssign programArgs n <;> rfl
    · intro a ha n v hfind
      exact smKeys_mem_smInsert_of_mem _ _ _ _
        (smKeys_mem_smInsert_of_mem _ _ _ _ (hall a ha n v hfind))

theorem parse_partition_spec_witness :
    ∃ ra, getTargetNameAndRunArgs (.ok ['p']) [['t'], ['A', '=', 'b']]
        = some (.ok (['t'], ra))
      ∧ smFind ra cmdKey = some (joinSpace [])
      ∧ smFind ra binKey = some ['p']
      ∧ (∀ n, n ≠ cmdKey → n ≠ binKey →
          smFind ra n = lastAssign [['t'], ['A', '=', 'b']] n)
      ∧ ∀ a ∈ [['t'], ['A', '=', 'b']], ∀ n v,
          findStringSubmatch a = [a, n, v] → n ∈ smKeys ra :=
  (parse_partition_spec [['t'], ['A', '=', 'b']] ['p']).2.2 ['t'] [] (by decide)

/-- C5 counterexample: the argument x=newline matches the claimed pattern
NAME=VALUE (NAME alphanumeric, VALUE non-empty and otherwise unrestricted),
so per the claim it would become a variable-map entry and — being the only
argument — leave the residual sequence empty and fail with the
missing-target error; the program instead treats it as residual (the Go
regexp `.` cannot match the newline in VALUE) and successfully returns it as
the target name, with CMD bound to the empty string. -/
theorem parse_newline_value_cex :
    isAssignClaim nlArg ['x'] ['\n']
    ∧ getTargetNameAndRunArgs (.ok []) [nlArg]
        = some (.ok (nlArg, [(cmdKey, []), (binKey, [])])) := by
  constructor
  · exact ⟨rfl, by decide, by decide, by decide⟩
  · decide

theorem c8Loop_none (F : Str → Option Str) (h1 : F ['$', 'A'] = none) :
    withResolvedArgsLoop F raC8 ['$', 'A'] = none := by
  have c1 : strContains ['$', 'A'] ('$' :: ['A']) = true := rfl
  simp [raC8, withResolvedArgsLoop, c1, h1]

theorem c8_resolution_diverges : resolveDiverges raC8 ['$', 'A'] := by
  intro fuel
  induction fuel with
  | zero => rfl
  | succ f ih => exact c8Loop_none _ ih

theorem c8_validator_hangs :
    ArgsValidatorHangs (.error ['g']) (.ok t8) (.ok ['b']) args8 := by
  intro fuel
  have hp : getTargetNameAndRunArgs (.ok ['b']) args8 = some (.ok (['$', 'A'], raC8)) := by
    decide
  simp only [ArgsValidator, hp, c8_resolution_diverges fuel]

/-- C8 counterexample: the caller supplies the assignment A=dollar-A and the
target token dollar-A; parsing succeeds (first conjunct), loading and merging
succeed and the merged definitions bind no target, so the token is absent
from them (second and third conjuncts), and per the claim the invocation
should fail with the unknown-target error naming that token — but the
resolution of the target name for display at torto.go:229 runs before the
lookup at torto.go:237 and recurses forever on dollar-A (the key A always
re-matches its own value), so the validator produces no result at any
recursion depth and no error ever surfaces: the error-surfacing part of the
claim is false as universally stated. -/
theorem ArgsValidator_resolution_hang_cex :
    getTargetNameAndRunArgs (.ok ['b']) args8 = some (.ok (['$', 'A'], raC8))
    ∧ getTargets (.error ['g']) (.ok t8) raC8 = some (.ok (⟨some [], some []⟩, raC8))
    ∧ smFindO (⟨some [], some []⟩ : TargetsM).targets ['$', 'A'] = none
    ∧ ArgsValidatorHangs (.error ['g']) (.ok t8) (.ok ['b']) args8 :=
  ⟨by decide, by decide, by decide, c8_validator_hangs⟩

/-- C8 amended: whenever the display resolution of the target name
terminates, the target whose commands are executed is looked up in the
merged TargetDefinitions under the literal, unresolved target-name token
supplied on the command line — the selected command list is the lookup of
that literal token at every such resolver depth, with the resolution result
appearing only in the display field c.target — and a token absent from the
merged definitions fails with the unknown-target error naming that literal
token; if the display resolution diverges (e.g. caller argument A=$A with
target token $A), the program hangs at torto.go:229 before the lookup and no
error surfaces. -/
theorem ArgsValidator_literal_lookup (fuel : Nat)
    (defaultRes thisRes : Except Str TargetsM) (exePath : Except Str Str)
    (args : List Str) (targetName displayTarget : Str) (runArgs : SMap Str)
    (hp : getTargetNameAndRunArgs exePath args = some (.ok (targetName, runArgs)))
    (hr : withResolvedArgs runArgs fuel targetName = some displayTarget)
    (m : TargetsM) (repl : SMap Str)
    (hg : getTargets defaultRes thisRes runArgs = some (.ok (m, repl))) :
    (∀ cmds, smFindO m.targets targetName = some cmds →
        ArgsValidator fuel defaultRes thisRes exePath args
          = some (.ok ⟨displayTarget, repl, cmds⟩))
    ∧ (smFindO m.targets targetName = none →
        ArgsValidator fuel defaultRes thisRes exePath args
          = some (.error ("target ".data ++ targetName ++ " does not exist".data))) := by
  constructor
  · intro cmds hc
    simp only [ArgsValidator, hp, hr, hg, hc]
  · intro hc
    simp only [ArgsValidator, hp, hr, hg, hc]

theorem ArgsValidator_literal_lookup_witness :
    ArgsValidator 1 (.error ['g']) (.ok ⟨some [(['t'], [['c']])], some []⟩) (.ok ['b']) [['t']]
      = some (.ok ⟨['t'], [(cmdKey, []), (binKey, ['b'])], [['c']]⟩) :=
  (ArgsValidator_literal_lookup 1 (.error ['g']) (.ok ⟨some [(['t'], [['c']])], some []⟩)
    (.ok ['b']) [['t']] ['t'] ['t'] [(cmdKey, []), (binKey, ['b'])] (by decide) (by decide)
    ⟨some [(['t'], [['c']])], some []⟩ [(cmdKey, []), (binKey, ['b'])] (by decide)).1
    [['c']] (by decide)

end Torto
